import Mathlib

/-!
Verification of the uranus kernel-event policy agent against its
natural-language specification.

Go strings are modelled as lists of characters (`Str`), SQLite tables as
lists of row structures, and the two `ProcessWorker` variants (Go packages
`judge` and `background`) as pure step functions over those tables that
additionally report their observable effects (messages sent, log calls,
self-termination signals, watchdog kicks, panics).
-/

/-- Go strings, modelled as lists of characters. -/
abbrev Str := List Char

/-- ASCII Unit Separator (0x1F), the separator of raw hackernel commands. -/
def unitSep : Char := Char.ofNat 31

/-- Go `strings.Split(cmd, "\u001f")` on the character-list model. -/
def splitUnitSep (s : Str) : List Str := s.splitOn unitSep

/-- Joining components with the ASCII Unit Separator. Modelled from the spec:
the kernel-side encoder of raw commands is not part of this repository; the
spec describes the encoding as workdir, binary and argument tokens joined
with 0x1F. -/
def joinUnitSep (parts : List Str) : Str := [unitSep].intercalate parts

/-- Raw-command join of a workdir, a binary and argument tokens, per the
spec's description of the wire encoding. -/
def joinCmd (workdir binary : Str) (tokens : List Str) : Str :=
  joinUnitSep (workdir :: binary :: tokens)

/-- Space-joined argument tokens (the value `argv` accumulates to in
`ParseHackernelCmd`): `raw[2] + " " + raw[3] + ...`. -/
def spaceJoin (tokens : List Str) : Str := [' '].intercalate tokens

/-- Go `ParseHackernelCmd` (src/internal/telegram/render.go): split the raw
command on the unit separator; `workdir := raw[0]`, `exec := raw[1]`,
`argv := raw[2]` followed by the space-prefixed remaining tokens. The Go
code indexes `raw[0]`, `raw[1]`, `raw[2]` unconditionally and panics with an
index-out-of-range error when fewer than three components exist; the
fallible indexing is modelled by `Option`. -/
def ParseHackernelCmd (cmd : Str) : Option (Str × Str × Str) :=
  match splitUnitSep cmd with
  | workdir :: exec :: argv0 :: rest =>
      some (workdir, exec, rest.foldl (fun acc tok => acc ++ ' ' :: tok) argv0)
  | _ => none

theorem foldl_space_eq_spaceJoin (argv0 : Str) (rest : List Str) :
    rest.foldl (fun acc tok => acc ++ ' ' :: tok) argv0 = spaceJoin (argv0 :: rest) := by
  induction rest generalizing argv0 with
  | nil => simp [spaceJoin, List.intercalate]
  | cons t ts ih =>
      rw [List.foldl_cons, ih]
      simp only [spaceJoin, List.intercalate]
      cases ts <;>
        simp [List.intersperse_cons_cons, List.flatten, List.append_assoc]

/-- C8: the round trip as literally claimed fails when the token list is
empty: `ParseHackernelCmd` reads `raw[2]` unconditionally, and splitting
`workdir ++ 0x1F ++ binary` yields only two components, so the Go code
panics with an index-out-of-range error (modelled by `none`) instead of
recovering the workdir, the binary and an empty argv. -/
theorem c8_counterexample :
    ParseHackernelCmd (joinCmd ['w'] ['b'] []) = none := by decide

/-- C8 (amended): for every workdir, binary and NON-EMPTY list of argument
tokens, none of which contain the unit separator, joining with 0x1F and
then splitting via `ParseHackernelCmd` recovers the workdir as the first
component, the binary as the second, and the space-joined tokens as argv. -/
theorem c8_amended_roundtrip (workdir binary : Str) (tokens : List Str)
    (hw : unitSep ∉ workdir) (hb : unitSep ∉ binary)
    (ht : ∀ t ∈ tokens, unitSep ∉ t) (hne : tokens ≠ []) :
    ParseHackernelCmd (joinCmd workdir binary tokens) =
      some (workdir, binary, spaceJoin tokens) := by
  unfold ParseHackernelCmd joinCmd splitUnitSep joinUnitSep
  rw [List.splitOn_intercalate]
  · cases tokens with
    | nil => exact absurd rfl hne
    | cons t ts => simp [foldl_space_eq_spaceJoin]
  · intro l hl
    simp only [List.mem_cons] at hl
    rcases hl with rfl | rfl | h
    · exact hw
    · exact hb
    · exact ht l h
  · simp

/-- C8 witness: the amended round trip evaluated on a concrete command. -/
theorem c8_amended_roundtrip_witness :
    ParseHackernelCmd (joinCmd ['/', 't', 'm', 'p'] ['l', 's'] [['-', 'a']]) =
      some (['/', 't', 'm', 'p'], ['l', 's'], ['-', 'a']) :=
  c8_amended_roundtrip _ _ _ (by decide) (by decide) (by decide) (by decide)

/-- Outbound protocol messages sent from inside the workers' loops. Both
`setTrustedCmd` implementations marshal
`{"type":"user::proc::trusted::insert","cmd":cmd}` and send it. -/
inductive OutMsg where
  | trustedInsert (cmd : Str)
deriving DecidableEq

/-- Value of a JSON object field, as seen through Go type assertions:
absent, present with a value of the expected type, or present with a value
of a different JSON type. -/
inductive JField (α : Type) where
  | absent
  | val (a : α)
  | wrongType
deriving DecidableEq

/-- The decoded view of a well-formed inbound JSON document: the fields the
two workers inspect (`type`, `cmd`, `judge`). -/
structure JsonDoc where
  typeField : JField String
  cmdField : JField Str
  judgeField : Option Int
deriving DecidableEq

/-- One result of `conn.Recv()` followed by JSON decoding: a receive error,
a payload that is not valid JSON, or a well-formed JSON document. -/
inductive Inbound where
  | recvErr
  | malformed
  | wellFormed (doc : JsonDoc)
deriving DecidableEq

/-- Go `json.Unmarshal` into the background worker's typed struct
`{Type string; Cmd string; Judge int}`: a field present with a value of the
wrong JSON type makes Unmarshal return an error; an absent field keeps the
zero value (`""`, `0`). -/
def bgDecode (d : JsonDoc) : Option (String × Str × Int) :=
  match d.typeField, d.cmdField with
  | .val t, .val c => some (t, c, d.judgeField.getD 0)
  | .val t, .absent => some (t, [], d.judgeField.getD 0)
  | .absent, .val c => some ("", c, d.judgeField.getD 0)
  | .absent, .absent => some ("", [], d.judgeField.getD 0)
  | _, _ => none

/-- Observable effects of one iteration of a worker's receive loop. -/
structure Effects where
  sent : List OutMsg := []
  logged : Bool := false
  killedSelf : Bool := false
  kickedDog : Bool := false
  panicked : Bool := false
  processed : Bool := false
  exitsLoop : Bool := false
deriving DecidableEq

/-- Number of `user::proc::trusted::insert` messages for a given command in
an outbound message list. -/
def countTrusted (cmd : Str) (out : List OutMsg) : Nat :=
  out.countP fun m => decide (m = OutMsg.trustedInsert cmd)

/-- An inbound `audit::proc::report` document for a command. -/
def auditMsg (cmd : Str) (j : Option Int) : Inbound :=
  .wellFormed { typeField := .val "audit::proc::report", cmdField := .val cmd, judgeField := j }

/-- An inbound `osinfo::report` heartbeat document. -/
def osinfoMsg : Inbound :=
  .wellFormed { typeField := .val "osinfo::report", cmdField := .absent, judgeField := none }

/-- Run a receive loop (with the running flag held true) over a list of
inbound messages, folding a step function and collecting the outbound
messages; a panic aborts the loop. -/
def foldRun {σ : Type} (stepFn : σ → Inbound → σ × Effects) :
    List Inbound → σ → σ × List OutMsg
  | [], s => (s, [])
  | m :: ms, s =>
    let s2 := stepFn s m
    if s2.2.panicked then (s2.1, s2.2.sent)
    else
      let s3 := foldRun stepFn ms s2.1
      (s3.1, s2.2.sent ++ s3.2)

namespace Judge

/-- One row of the `judge` table (Go package judge):
`create table judge(id integer primary key autoincrement, cmd blob not null, times integer default 1)`.
Row identity (the `id` column) is the position in the list. -/
structure Row where
  cmd : Str
  times : Nat
deriving DecidableEq

abbrev Table := List Row

/-- Go `updateCmdTimes` (package judge): `select id, times from judge where cmd=? limit 1`;
on no row, insert the command (`times` defaults to 1) and return 1; otherwise
`update judge set times=? where id=?` with the incremented value and return it. -/
def updateCmdTimes (cmd : Str) : Table → Table × Nat
  | [] => ([⟨cmd, 1⟩], 1)
  | r :: rs =>
    if r.cmd = cmd then (⟨r.cmd, r.times + 1⟩ :: rs, r.times + 1)
    else
      let res := updateCmdTimes cmd rs
      (r :: res.1, res.2)

/-- Times recorded for a command: the `times` column of the first row whose
`cmd` matches (the row `limit 1` selects), or 0 if no row matches. -/
def timesOf (cmd : Str) : Table → Nat
  | [] => 0
  | r :: rs => if r.cmd = cmd then r.times else timesOf cmd rs

/-- Go `initTrustedCmd` (package judge): `select cmd from judge where times >= ?`
queried with 3, sending `setTrustedCmd` for every returned row in order. -/
def initTrustedCmd (tbl : Table) : List OutMsg :=
  ((tbl.filter fun r => decide (3 ≤ r.times)).map (·.cmd)).map OutMsg.trustedInsert

/-- One iteration of the judge worker's `run` loop after `conn.Recv()`
returned, given the value of the `running` flag observed by this iteration.
On a receive error the error is logged only while running, then the loop
continues (the `for w.running` condition decides whether it exits). A
malformed payload is logged and dropped. `doc["type"].(string)` and
`doc["cmd"].(string)` are Go type assertions that panic when the field is
absent or not a string. An `audit::proc::report` updates the times and
sends `user::proc::trusted::insert` whenever the post-update times is at
least 3 (`if times < 3 { continue }`). -/
def step (running : Bool) (tbl : Table) (m : Inbound) : Table × Effects :=
  match m with
  | .recvErr => (tbl, { logged := running, exitsLoop := !running })
  | .malformed => (tbl, { logged := true, exitsLoop := !running })
  | .wellFormed d =>
    match d.typeField with
    | .val t =>
      if t ≠ "audit::proc::report" then (tbl, { processed := true, exitsLoop := !running })
      else
        match d.cmdField with
        | .val c =>
          let res := updateCmdTimes c tbl
          if res.2 < 3 then (res.1, { processed := true, exitsLoop := !running })
          else
            (res.1, { sent := [OutMsg.trustedInsert c], processed := true,
                      exitsLoop := !running })
        | _ => (tbl, { processed := true, panicked := true, exitsLoop := true })
    | _ => (tbl, { panicked := true, exitsLoop := true })

/-- The judge worker's receive loop while the agent stays running. -/
def runLoop (ms : List Inbound) (tbl : Table) : Table × List OutMsg :=
  foldRun (step true) ms tbl

end Judge

namespace Background

/-- One row of the `process` table (Go package background):
`create table process(id integer primary key autoincrement, cmd blob not null unique, workdir text not null, binary text not null, argv text not null, count integer not null, judge integer not null, status integer not null)`. -/
structure AuditRecord where
  cmd : Str
  workdir : Str
  binary : Str
  argv : Str
  count : Nat
  judge : Int
  status : Nat
deriving DecidableEq

abbrev Table := List AuditRecord

/-- Modelled from the spec: `process.SplitCmd` (Go package uranus/pkg/process)
is not under src/; the spec says the insert path derives workdir, binary and
argvJoined by splitting `command` on its separator, argv being the remaining
tokens space-joined. -/
def SplitCmd (cmd : Str) : Str × Str × Str :=
  match splitUnitSep cmd with
  | workdir :: binary :: rest => (workdir, binary, spaceJoin rest)
  | [workdir] => (workdir, [], [])
  | [] => ([], [], [])

/-- Go `sqlUpdateCount`: `update process set count=count+1,judge=? where cmd=?`.
Returns the updated table and the number of affected rows. -/
def sqlUpdateCount (judgeVal : Int) (cmd : Str) (tbl : Table) : Table × Nat :=
  (tbl.map fun r =>
      if r.cmd = cmd then { r with count := r.count + 1, judge := judgeVal } else r,
   tbl.countP fun r => decide (r.cmd = cmd))

/-- Go `sqlInsert`:
`insert into process(cmd,workdir,binary,argv,count,judge,status) values(?,?,?,?,1,?,0)`. -/
def sqlInsertRow (cmd workdir binary argv : Str) (judgeVal : Int) (tbl : Table) : Table :=
  tbl ++ [⟨cmd, workdir, binary, argv, 1, judgeVal, 0⟩]

/-- Go `updateCmd` (package background): execute the count update; if zero
rows were affected, split the command and insert a fresh row with count 1
and status 0. -/
def updateCmd (cmd : Str) (judgeVal : Int) (tbl : Table) : Table :=
  let upd := sqlUpdateCount judgeVal cmd tbl
  if upd.2 ≠ 0 then upd.1
  else
    let parts := SplitCmd cmd
    sqlInsertRow cmd parts.1 parts.2.1 parts.2.2 judgeVal upd.1

/-- Go `sqlQueryStatusAllow`: `select cmd from process where status=2`. -/
def sqlQueryStatusAllow (tbl : Table) : List Str :=
  (tbl.filter fun r => decide (r.status = 2)).map (·.cmd)

/-- Go `initTrustedCmd` (package background): send `setTrustedCmd` for every
command returned by the status=2 query, in row order. -/
def initTrustedCmd (tbl : Table) : List OutMsg :=
  (sqlQueryStatusAllow tbl).map OutMsg.trustedInsert

/-- Idempotent schema initialization (`create table if not exists` and
`create unique index if not exists`): creates an empty table when the store
is absent and leaves existing rows untouched. -/
def initDBData (store : Option Table) : Option Table :=
  some (store.getD [])

/-- One iteration of the background worker's `run` loop after `conn.Recv()`
returned, given the value of the `running` flag observed by this iteration:
`if !w.running { break }`; a receive error or an Unmarshal error is logged
and `syscall.Kill(syscall.Getpid(), syscall.SIGINT)` is issued before
`continue`; `audit::proc::report` runs `updateCmd` (the persistence-error
path is not modelled: the store is assumed to execute its statements);
`osinfo::report` kicks the watchdog; other types are ignored. -/
def step (running : Bool) (tbl : Table) (m : Inbound) : Table × Effects :=
  if running then
    match m with
    | .recvErr => (tbl, { logged := true, killedSelf := true })
    | .malformed => (tbl, { logged := true, killedSelf := true })
    | .wellFormed d =>
      match bgDecode d with
      | none => (tbl, { logged := true, killedSelf := true })
      | some (t, c, j) =>
        if t = "audit::proc::report" then (updateCmd c j tbl, { processed := true })
        else if t = "osinfo::report" then (tbl, { kickedDog := true, processed := true })
        else (tbl, { processed := true })
  else (tbl, { exitsLoop := true })

/-- The background worker's receive loop while the agent stays running. -/
def runLoop (ms : List Inbound) (tbl : Table) : Table × List OutMsg :=
  foldRun (step true) ms tbl

end Background

/-- A list of audit reports, rendered as the inbound messages carrying them. -/
def reportMsgs (reports : List (Str × Option Int)) : List Inbound :=
  reports.map fun p => auditMsg p.1 p.2

/-- Number of reports for a given command in a report sequence. -/
def reportsFor (cmd : Str) (reports : List (Str × Option Int)) : Nat :=
  reports.countP fun p => decide (p.1 = cmd)

theorem judge_updateCmdTimes_snd (cmd : Str) (tbl : Judge.Table) :
    (Judge.updateCmdTimes cmd tbl).2 = Judge.timesOf cmd tbl + 1 := by
  induction tbl with
  | nil => rfl
  | cons r rs ih =>
    by_cases h : r.cmd = cmd <;> simp [Judge.updateCmdTimes, Judge.timesOf, h, ih]

theorem judge_timesOf_updateCmdTimes (c cmd : Str) (tbl : Judge.Table) :
    Judge.timesOf c (Judge.updateCmdTimes cmd tbl).1 =
      if cmd = c then Judge.timesOf c tbl + 1 else Judge.timesOf c tbl := by
  induction tbl with
  | nil =>
    by_cases h : cmd = c <;> simp [Judge.updateCmdTimes, Judge.timesOf, h]
  | cons r rs ih =>
    by_cases h1 : r.cmd = cmd
    · by_cases h2 : cmd = c
      · subst h2; simp [Judge.updateCmdTimes, Judge.timesOf, h1]
      · have h3 : ¬ (r.cmd = c) := fun hc => h2 (h1 ▸ hc)
        simp [Judge.updateCmdTimes, Judge.timesOf, h1, h2, h3]
    · by_cases h3 : r.cmd = c
      · have h4 : ¬ (cmd = c) := fun hc => h1 (by rw [h3, hc])
        have h5 : ¬ (c = cmd) := fun hc => h4 hc.symm
        simp [Judge.updateCmdTimes, Judge.timesOf, h1, h3, h4, h5]
      · simp [Judge.updateCmdTimes, Judge.timesOf, h1, h3, ih]

theorem background_step_sent_nil (tbl : Background.Table) (m : Inbound) :
    (Background.step true tbl m).2.sent = [] ∧
      (Background.step true tbl m).2.panicked = false := by
  cases m with
  | recvErr => exact ⟨rfl, rfl⟩
  | malformed => exact ⟨rfl, rfl⟩
  | wellFormed d =>
    simp only [Background.step, if_pos trivial]
    cases hbd : bgDecode d with
    | none => exact ⟨rfl, rfl⟩
    | some v =>
      obtain ⟨t, c, j⟩ := v
      by_cases h1 : t = "audit::proc::report" <;> by_cases h2 : t = "osinfo::report" <;>
        simp [h1, h2]

theorem background_runLoop_sent_nil (ms : List Inbound) :
    ∀ tbl : Background.Table, (Background.runLoop ms tbl).2 = [] := by
  induction ms with
  | nil => intro tbl; rfl
  | cons m ms ih =>
    intro tbl
    have h := background_step_sent_nil tbl m
    simp [Background.runLoop, foldRun, h.1, h.2]
    exact ih _

theorem judge_step_audit (tbl : Judge.Table) (c : Str) (j : Option Int) :
    Judge.step true tbl (auditMsg c j) =
      ((Judge.updateCmdTimes c tbl).1,
        { sent := if Judge.timesOf c tbl + 1 < 3 then [] else [OutMsg.trustedInsert c],
          processed := true }) := by
  simp only [Judge.step, auditMsg, judge_updateCmdTimes_snd]
  by_cases h : Judge.timesOf c tbl + 1 < 3 <;> simp [h]

theorem judge_runLoop_cons_audit (c : Str) (j : Option Int) (ms : List Inbound)
    (tbl : Judge.Table) :
    Judge.runLoop (auditMsg c j :: ms) tbl =
      ((Judge.runLoop ms (Judge.updateCmdTimes c tbl).1).1,
        (if Judge.timesOf c tbl + 1 < 3 then [] else [OutMsg.trustedInsert c]) ++
          (Judge.runLoop ms (Judge.updateCmdTimes c tbl).1).2) := by
  simp only [Judge.runLoop, foldRun, judge_step_audit]
  by_cases h : Judge.timesOf c tbl + 1 < 3 <;> simp [h]

theorem judge_trusted_send_count (c : Str) (reports : List (Str × Option Int)) :
    ∀ tbl : Judge.Table,
      countTrusted c (Judge.runLoop (reportMsgs reports) tbl).2 =
        Judge.timesOf c tbl + reportsFor c reports - max (Judge.timesOf c tbl) 2 := by
  induction reports with
  | nil =>
    intro tbl
    simp only [Judge.runLoop, reportMsgs, List.map_nil, foldRun, countTrusted,
      List.countP_nil, reportsFor]
    rw [Nat.max_def]
    split_ifs <;> omega
  | cons p ps ih =>
    intro tbl
    obtain ⟨pc, pj⟩ := p
    rw [reportMsgs, List.map_cons, judge_runLoop_cons_audit]
    dsimp only
    have htimes := judge_timesOf_updateCmdTimes c pc tbl
    have hrest := ih (Judge.updateCmdTimes pc tbl).1
    rw [show (List.map (fun p => auditMsg p.1 p.2) ps) = reportMsgs ps from rfl]
    simp only [countTrusted, List.countP_append] at hrest ⊢
    rw [Nat.max_def] at hrest ⊢
    by_cases hc : pc = c
    · subst hc
      simp only [if_pos rfl] at htimes
      rw [htimes] at hrest
      have hcnt : reportsFor pc ((pc, pj) :: ps) = reportsFor pc ps + 1 := by
        simp [reportsFor, List.countP_cons]
      rw [hcnt]
      simp only [if_true] at hrest ⊢
      by_cases hlt : Judge.timesOf pc tbl + 1 < 3
      · rw [if_pos hlt]
        simp only [List.countP_nil]
        split_ifs at hrest ⊢ <;> omega
      · rw [if_neg hlt]
        simp only [List.countP_cons, List.countP_nil, decide_eq_true_eq, if_true]
        split_ifs at hrest ⊢ <;> omega
    · have hne : ¬ (pc = c) := hc
      simp only [if_neg hne] at htimes
      rw [htimes] at hrest
      have hcnt : reportsFor c ((pc, pj) :: ps) = reportsFor c ps := by
        simp [reportsFor, List.countP_cons, hne]
      rw [hcnt]
      have hstep : (List.countP (fun m => decide (m = OutMsg.trustedInsert c))
          (if Judge.timesOf pc tbl + 1 < 3 then [] else [OutMsg.trustedInsert pc])) = 0 := by
        by_cases hlt : Judge.timesOf pc tbl + 1 < 3 <;> simp [hlt, hne]
      rw [hstep]
      omega

/-- C1: the claim fails on both variants. In the judge variant, four reports
of a fresh command make the run loop send the trust-insertion TWICE (at the
third and again at the fourth report, since `if times < 3 { continue }`
fires for every post-update count of at least 3), not exactly once; in the
background variant, three reports make the run loop send it ZERO times (its
`audit::proc::report` branch only calls `updateCmd` and never
`setTrustedCmd`), not once per crossing. -/
theorem c1_counterexample :
    countTrusted ['l', 's']
        (Judge.runLoop (reportMsgs [(['l', 's'], some 1), (['l', 's'], some 1),
          (['l', 's'], some 1), (['l', 's'], some 1)]) []).2 = 2 ∧
      countTrusted ['l', 's']
        (Background.runLoop (reportMsgs [(['l', 's'], some 1), (['l', 's'], some 1),
          (['l', 's'], some 1)]) []).2 = 0 :=
  ⟨by decide, by decide⟩

/-- C1 (amended): during a single run over a sequence of audit reports, the
judge variant sends one `user::proc::trusted::insert` for EVERY report of a
command whose post-update count is at least 3 — `n - 2` messages for `n`
reports of a previously-unseen command, so one at the crossing and one more
for each later report — while the background variant's receive loop sends
no trust-insertion messages at all (trust replay happens only at startup). -/
theorem c1_amended_trust_sends (c : Str) (reports : List (Str × Option Int))
    (tbl : Judge.Table) (h0 : Judge.timesOf c tbl = 0) :
    countTrusted c (Judge.runLoop (reportMsgs reports) tbl).2 =
        reportsFor c reports - 2 ∧
      ∀ (ms : List Inbound) (btbl : Background.Table),
        (Background.runLoop ms btbl).2 = [] := by
  refine ⟨?_, fun ms btbl => background_runLoop_sent_nil ms btbl⟩
  rw [judge_trusted_send_count, h0]
  omega

/-- C1 witness: the amended statement applied to a fresh command reported
four times against empty stores. -/
theorem c1_amended_trust_sends_witness :
    countTrusted ['l', 's']
        (Judge.runLoop (reportMsgs [(['l', 's'], some 1), (['l', 's'], some 1),
          (['l', 's'], some 1), (['l', 's'], some 1)]) []).2 =
      reportsFor ['l', 's'] [(['l', 's'], some 1), (['l', 's'], some 1),
          (['l', 's'], some 1), (['l', 's'], some 1)] - 2 ∧
    (Background.runLoop (reportMsgs [(['l', 's'], some 1)]) []).2 = [] :=
  ⟨(c1_amended_trust_sends ['l', 's'] _ [] (by decide)).1,
   (c1_amended_trust_sends ['l', 's'] [] [] (by decide)).2 _ _⟩

/-- The record stored for a command: the first row whose `cmd` column
matches (with the unique index there is at most one). -/
def Background.recordOf (cmd : Str) : Background.Table → Option Background.AuditRecord
  | [] => none
  | r :: rs => if r.cmd = cmd then some r else Background.recordOf cmd rs

/-- Number of rows keyed by a command. -/
def Background.countRec (cmd : Str) (tbl : Background.Table) : Nat :=
  tbl.countP fun r => decide (r.cmd = cmd)

/-- The `cmd blob not null unique` constraint: no two rows share a command. -/
def Background.uniqueCmds (tbl : Background.Table) : Prop :=
  (tbl.map (·.cmd)).Nodup

/-- Folding the trust-update operation over a sequence of audit reports
`(cmd, judge)`, as the background receive loop does for
`audit::proc::report` events. -/
def Background.processReports (reports : List (Str × Int)) (tbl : Background.Table) :
    Background.Table :=
  reports.foldl (fun t p => Background.updateCmd p.1 p.2 t) tbl

/-- Folding `updateCmdTimes` over a sequence of reported commands, as the
judge receive loop does. -/
def Judge.processCmds (cmds : List Str) (tbl : Judge.Table) : Judge.Table :=
  cmds.foldl (fun t c => (Judge.updateCmdTimes c t).1) tbl

/-- Number of reports for a command in a `(cmd, judge)` report sequence. -/
def bgReportsFor (cmd : Str) (reports : List (Str × Int)) : Nat :=
  reports.countP fun p => decide (p.1 = cmd)

/-- Judgment code of the most recent report for a command, if any. -/
def bgLastJudge (cmd : Str) (reports : List (Str × Int)) : Option Int :=
  ((reports.filter fun p => decide (p.1 = cmd)).getLast?).map (·.2)

theorem bg_sqlUpdateCount_snd (c : Str) (j : Int) (tbl : Background.Table) :
    (Background.sqlUpdateCount j c tbl).2 = Background.countRec c tbl := rfl

theorem bg_map_cmd_sqlUpdateCount (c : Str) (j : Int) (tbl : Background.Table) :
    ((Background.sqlUpdateCount j c tbl).1).map (·.cmd) = tbl.map (·.cmd) := by
  simp only [Background.sqlUpdateCount, List.map_map]
  apply List.map_congr_left
  intro r hr
  by_cases h : r.cmd = c <;> simp [h]

theorem bg_recordOf_sqlUpdateCount_same (c : Str) (j : Int) (tbl : Background.Table) :
    Background.recordOf c (Background.sqlUpdateCount j c tbl).1 =
      (Background.recordOf c tbl).map
        fun r => { r with count := r.count + 1, judge := j } := by
  induction tbl with
  | nil => rfl
  | cons r rs ih =>
    simp only [Background.sqlUpdateCount, List.map_cons] at ih ⊢
    by_cases h : r.cmd = c
    · rw [if_pos h]
      simp [Background.recordOf, h]
    · rw [if_neg h]
      simp [Background.recordOf, h, ih]

theorem bg_recordOf_sqlUpdateCount_other (c c' : Str) (h : c' ≠ c) (j : Int)
    (tbl : Background.Table) :
    Background.recordOf c' (Background.sqlUpdateCount j c tbl).1 =
      Background.recordOf c' tbl := by
  induction tbl with
  | nil => rfl
  | cons r rs ih =>
    simp only [Background.sqlUpdateCount, List.map_cons] at ih ⊢
    by_cases h1 : r.cmd = c
    · have h2 : ¬ (r.cmd = c') := fun hc => h (by rw [← hc, h1])
      rw [if_pos h1]
      simp [Background.recordOf, h2, ih]
    · rw [if_neg h1]
      simp [Background.recordOf, ih]

theorem bg_countRec_sqlUpdateCount (c c' : Str) (j : Int) (tbl : Background.Table) :
    Background.countRec c' (Background.sqlUpdateCount j c tbl).1 =
      Background.countRec c' tbl := by
  simp only [Background.countRec, Background.sqlUpdateCount, List.countP_map]
  apply List.countP_congr
  intro r hr
  by_cases h : r.cmd = c <;> simp [h, Function.comp]

theorem bg_recordOf_append_ne (c : Str) (x : Background.AuditRecord)
    (h : x.cmd ≠ c) (tbl : Background.Table) :
    Background.recordOf c (tbl ++ [x]) = Background.recordOf c tbl := by
  induction tbl with
  | nil => simp [Background.recordOf, h]
  | cons r rs ih =>
    by_cases h1 : r.cmd = c <;> simp [Background.recordOf, h1, ih]

theorem bg_recordOf_append_self (c : Str) (x : Background.AuditRecord)
    (hx : x.cmd = c) (tbl : Background.Table)
    (h : Background.recordOf c tbl = none) :
    Background.recordOf c (tbl ++ [x]) = some x := by
  induction tbl with
  | nil => simp [Background.recordOf, hx]
  | cons r rs ih =>
    by_cases h1 : r.cmd = c
    · simp [Background.recordOf, h1] at h
    · simp [Background.recordOf, h1] at h ⊢
      exact ih h

theorem bg_countRec_eq_zero_iff (c : Str) (tbl : Background.Table) :
    Background.countRec c tbl = 0 ↔ ∀ r ∈ tbl, r.cmd ≠ c := by
  simp [Background.countRec, List.countP_eq_zero]

theorem bg_recordOf_eq_none_of_countRec (c : Str) (tbl : Background.Table)
    (h : Background.countRec c tbl = 0) : Background.recordOf c tbl = none := by
  rw [bg_countRec_eq_zero_iff] at h
  induction tbl with
  | nil => rfl
  | cons r rs ih =>
    have hr := h r (by simp)
    simp [Background.recordOf, hr]
    exact ih fun x hx => h x (by simp [hx])

theorem bg_countRec_pos_of_recordOf (c : Str) (tbl : Background.Table)
    (r : Background.AuditRecord) (h : Background.recordOf c tbl = some r) :
    Background.countRec c tbl ≠ 0 := by
  intro h0
  rw [bg_recordOf_eq_none_of_countRec c tbl h0] at h
  exact Option.noConfusion h

theorem bg_recordOf_none_iff (c : Str) (tbl : Background.Table) :
    Background.recordOf c tbl = none ↔ Background.countRec c tbl = 0 := by
  induction tbl with
  | nil => simp [Background.recordOf, Background.countRec]
  | cons r rs ih =>
    by_cases h : r.cmd = c <;>
      simp [Background.recordOf, Background.countRec, List.countP_cons, h, ih]

theorem bg_sqlUpdateCount_fst_of_absent (c : Str) (j : Int) (tbl : Background.Table)
    (h : Background.countRec c tbl = 0) :
    (Background.sqlUpdateCount j c tbl).1 = tbl := by
  rw [bg_countRec_eq_zero_iff] at h
  simp only [Background.sqlUpdateCount]
  have hcong : ∀ r ∈ tbl,
      (if r.cmd = c then { r with count := r.count + 1, judge := j } else r) = id r := by
    intro r hr
    simp [h r hr]
  rw [List.map_congr_left hcong, List.map_id]

theorem bg_updateCmd_of_absent (c : Str) (j : Int) (tbl : Background.Table)
    (h : Background.countRec c tbl = 0) :
    Background.updateCmd c j tbl =
      tbl ++ [⟨c, (Background.SplitCmd c).1, (Background.SplitCmd c).2.1,
              (Background.SplitCmd c).2.2, 1, j, 0⟩] := by
  simp only [Background.updateCmd]
  rw [show (Background.sqlUpdateCount j c tbl).2 = 0 from h]
  simp [Background.sqlInsertRow, bg_sqlUpdateCount_fst_of_absent c j tbl h]

theorem bg_updateCmd_of_present (c : Str) (j : Int) (tbl : Background.Table)
    (h : Background.countRec c tbl ≠ 0) :
    Background.updateCmd c j tbl = (Background.sqlUpdateCount j c tbl).1 := by
  simp only [Background.updateCmd]
  rw [if_pos (show (Background.sqlUpdateCount j c tbl).2 ≠ 0 from h)]

theorem bg_updateCmd_other_eq (pc c : Str) (h : pc ≠ c) (j : Int) (tbl : Background.Table) :
    Background.recordOf c (Background.updateCmd pc j tbl) = Background.recordOf c tbl ∧
      Background.countRec c (Background.updateCmd pc j tbl) = Background.countRec c tbl := by
  by_cases h0 : Background.countRec pc tbl = 0
  · rw [bg_updateCmd_of_absent pc j tbl h0]
    constructor
    · exact bg_recordOf_append_ne c _ h tbl
    · simp [Background.countRec, List.countP_append, h]
  · rw [bg_updateCmd_of_present pc j tbl h0]
    exact ⟨bg_recordOf_sqlUpdateCount_other pc c (Ne.symm h) j tbl,
      bg_countRec_sqlUpdateCount pc c j tbl⟩

theorem bgLastJudge_cons_same (c : Str) (j : Int) (ps : List (Str × Int)) (x : Int) :
    (bgLastJudge c ((c, j) :: ps)).getD x = (bgLastJudge c ps).getD j := by
  simp only [bgLastJudge, List.filter_cons, decide_eq_true_eq, if_pos rfl, if_true]
  cases hl : ps.filter (fun p => decide (p.1 = c)) with
  | nil => simp
  | cons q qs =>
    rw [List.getLast?_cons_cons]
    have hne : q :: qs ≠ [] := by simp
    rw [List.getLast?_eq_getLast _ hne]
    simp

theorem bgLastJudge_cons_other (c pc : Str) (h : ¬ (pc = c)) (pj : Int)
    (ps : List (Str × Int)) :
    bgLastJudge c ((pc, pj) :: ps) = bgLastJudge c ps := by
  simp [bgLastJudge, List.filter_cons, h]

theorem bgReportsFor_cons (c pc : Str) (pj : Int) (ps : List (Str × Int)) :
    bgReportsFor c ((pc, pj) :: ps) =
      bgReportsFor c ps + if pc = c then 1 else 0 := by
  simp [bgReportsFor, List.countP_cons]

theorem bg_recordOf_processReports_some (c : Str) (reports : List (Str × Int)) :
    ∀ (tbl : Background.Table) (r : Background.AuditRecord),
      Background.recordOf c tbl = some r →
      Background.recordOf c (Background.processReports reports tbl) =
          some { r with count := r.count + bgReportsFor c reports,
                        judge := (bgLastJudge c reports).getD r.judge } ∧
        Background.countRec c (Background.processReports reports tbl) =
          Background.countRec c tbl := by
  induction reports with
  | nil =>
    intro tbl r h
    refine ⟨?_, rfl⟩
    simpa [Background.processReports, bgReportsFor, bgLastJudge] using h
  | cons p ps ih =>
    intro tbl r h
    obtain ⟨pc, pj⟩ := p
    have hfold : Background.processReports ((pc, pj) :: ps) tbl =
        Background.processReports ps (Background.updateCmd pc pj tbl) := rfl
    rw [hfold]
    by_cases hc : pc = c
    · subst hc
      have hcr : Background.countRec pc tbl ≠ 0 := bg_countRec_pos_of_recordOf pc tbl r h
      have hrec : Background.recordOf pc (Background.updateCmd pc pj tbl) =
          some { r with count := r.count + 1, judge := pj } := by
        rw [bg_updateCmd_of_present pc pj tbl hcr, bg_recordOf_sqlUpdateCount_same, h]
        rfl
      obtain ⟨ha, hb⟩ := ih (Background.updateCmd pc pj tbl) _ hrec
      constructor
      · rw [ha]
        simp only [bgReportsFor_cons, if_pos rfl]
        rw [bgLastJudge_cons_same]
        congr 1
        simp
        omega
      · rw [hb]
        have hcnt : Background.countRec pc (Background.updateCmd pc pj tbl) =
            Background.countRec pc tbl := by
          rw [bg_updateCmd_of_present pc pj tbl hcr]
          exact bg_countRec_sqlUpdateCount pc pc pj tbl
        rw [hcnt]
    · obtain ⟨h1, h2⟩ := bg_updateCmd_other_eq pc c hc pj tbl
      obtain ⟨ha, hb⟩ := ih (Background.updateCmd pc pj tbl) r (h1.trans h)
      constructor
      · rw [ha, bgLastJudge_cons_other c pc hc pj ps, bgReportsFor_cons]
        simp [hc]
      · rw [hb, h2]

theorem judge_timesOf_processCmds (c : Str) (cmds : List Str) :
    ∀ tbl : Judge.Table,
      Judge.timesOf c (Judge.processCmds cmds tbl) =
        Judge.timesOf c tbl + cmds.countP (fun x => decide (x = c)) := by
  induction cmds with
  | nil => intro tbl; simp [Judge.processCmds]
  | cons d ds ih =>
    intro tbl
    have hfold : Judge.processCmds (d :: ds) tbl =
        Judge.processCmds ds (Judge.updateCmdTimes d tbl).1 := rfl
    rw [hfold, ih, judge_timesOf_updateCmdTimes, List.countP_cons]
    by_cases h : d = c
    · simp [h]
      omega
    · simp [h]

theorem bg_fresh_record (c : Str) (reports : List (Str × Int)) :
    ∀ tbl : Background.Table, Background.countRec c tbl = 0 →
      ∀ j : Int, bgLastJudge c reports = some j →
        Background.countRec c (Background.processReports reports tbl) = 1 ∧
          Background.recordOf c (Background.processReports reports tbl) =
            some ⟨c, (Background.SplitCmd c).1, (Background.SplitCmd c).2.1,
                  (Background.SplitCmd c).2.2, bgReportsFor c reports, j, 0⟩ := by
  induction reports with
  | nil =>
    intro tbl h0 j hj
    simp [bgLastJudge] at hj
  | cons p ps ih =>
    intro tbl h0 j hj
    obtain ⟨pc, pj⟩ := p
    have hfold : Background.processReports ((pc, pj) :: ps) tbl =
        Background.processReports ps (Background.updateCmd pc pj tbl) := rfl
    rw [hfold]
    by_cases hc : pc = c
    · subst hc
      have hins := bg_updateCmd_of_absent pc pj tbl h0
      set fresh : Background.AuditRecord :=
        ⟨pc, (Background.SplitCmd pc).1, (Background.SplitCmd pc).2.1,
         (Background.SplitCmd pc).2.2, 1, pj, 0⟩ with hfresh
      have hrec : Background.recordOf pc (Background.updateCmd pc pj tbl) = some fresh := by
        rw [hins]
        exact bg_recordOf_append_self pc fresh rfl tbl
          ((bg_recordOf_none_iff pc tbl).mpr h0)
      have hcnt1 : Background.countRec pc (Background.updateCmd pc pj tbl) = 1 := by
        rw [hins]
        simp only [Background.countRec, List.countP_append] at h0 ⊢
        simp [h0, hfresh]
      obtain ⟨ha, hb⟩ := bg_recordOf_processReports_some pc ps
        (Background.updateCmd pc pj tbl) fresh hrec
      have hj2 : j = (bgLastJudge pc ps).getD pj := by
        have := bgLastJudge_cons_same pc pj ps j
        rw [hj] at this
        simpa using this
      refine ⟨by rw [hb, hcnt1], ?_⟩
      rw [ha, bgReportsFor_cons, if_pos rfl, hj2]
      simp [hfresh]
      omega
    · have hj3 : bgLastJudge c ps = some j := by
        rw [← bgLastJudge_cons_other c pc hc pj ps]
        exact hj
      have h02 : Background.countRec c (Background.updateCmd pc pj tbl) = 0 := by
        rw [(bg_updateCmd_other_eq pc c hc pj tbl).2]
        exact h0
      obtain ⟨ha, hb⟩ := ih (Background.updateCmd pc pj tbl) h02 j hj3
      refine ⟨ha, ?_⟩
      rw [hb, bgReportsFor_cons]
      simp [hc]

/-- C4: for every command c and finite report sequence (interleaved with
reports for other commands), starting from a store with no record for c,
after the reports the store holds exactly one record for c, whose
occurrence count equals the number of reports for c, whose judgment is the
most recent report's judgment, whose status is unclassified (0), and whose
workdir/binary/argv come from splitting c; the judge variant's times
counter equals the same report count. -/
theorem c4_audit_record_counts (c : Str) (reports : List (Str × Int))
    (tbl : Background.Table) (h0 : Background.countRec c tbl = 0)
    (j : Int) (hj : bgLastJudge c reports = some j)
    (jtbl : Judge.Table) (hjt : Judge.timesOf c jtbl = 0) :
    Background.countRec c (Background.processReports reports tbl) = 1 ∧
      Background.recordOf c (Background.processReports reports tbl) =
        some ⟨c, (Background.SplitCmd c).1, (Background.SplitCmd c).2.1,
              (Background.SplitCmd c).2.2, bgReportsFor c reports, j, 0⟩ ∧
      Judge.timesOf c (Judge.processCmds (reports.map (·.1)) jtbl) =
        bgReportsFor c reports := by
  obtain ⟨ha, hb⟩ := bg_fresh_record c reports tbl h0 j hj
  refine ⟨ha, hb, ?_⟩
  rw [judge_timesOf_processCmds, hjt, List.countP_map]
  rw [bgReportsFor]
  rw [Nat.zero_add]
  apply List.countP_congr
  intro x hx
  simp [Function.comp]

/-- C4 witness: two reports of one command interleaved with another
command, against empty stores. -/
theorem c4_audit_record_counts_witness :
    Background.countRec ['l', 's']
        (Background.processReports [(['l', 's'], 1), (['c', 'p'], 2), (['l', 's'], 3)] []) = 1 ∧
      Background.recordOf ['l', 's']
          (Background.processReports [(['l', 's'], 1), (['c', 'p'], 2), (['l', 's'], 3)] []) =
        some ⟨['l', 's'], (Background.SplitCmd ['l', 's']).1,
              (Background.SplitCmd ['l', 's']).2.1, (Background.SplitCmd ['l', 's']).2.2,
              bgReportsFor ['l', 's'] [(['l', 's'], 1), (['c', 'p'], 2), (['l', 's'], 3)], 3, 0⟩ ∧
      Judge.timesOf ['l', 's']
          (Judge.processCmds ([(['l', 's'], (1 : Int)), (['c', 'p'], 2),
            (['l', 's'], 3)].map (·.1)) []) =
        bgReportsFor ['l', 's'] [(['l', 's'], 1), (['c', 'p'], 2), (['l', 's'], 3)] :=
  c4_audit_record_counts ['l', 's'] [(['l', 's'], 1), (['c', 'p'], 2), (['l', 's'], 3)]
    [] (by decide) 3 (by decide) [] (by decide)

/-- The startup replay step viewed as a store operation: the status=2 query
and the sends read the table but do not modify it. -/
def Background.initTrustedCmdRun (tbl : Background.Table) :
    Background.Table × List OutMsg :=
  (tbl, Background.initTrustedCmd tbl)

theorem bg_cmd_not_mem_of_countRec_zero (c : Str) (tbl : Background.Table)
    (h : Background.countRec c tbl = 0) : c ∉ tbl.map (·.cmd) := by
  rw [bg_countRec_eq_zero_iff] at h
  intro hc
  obtain ⟨r, hr, hrc⟩ := List.mem_map.mp hc
  exact h r hr hrc

/-- C9: the store operations preserve the audit-store invariants: after a
trust update every command still keys at most one record, every
pre-existing record survives with the same command, workdir, binary, argv
and status, its occurrence count never decreases (and its judgment can only
change to the reported one), a record for another command is completely
unchanged; schema initialization keeps existing rows untouched (and creates
an empty store otherwise), and the trusted-replay query does not modify the
store. -/
theorem c9_store_invariants (tbl : Background.Table) (c : Str) (j : Int)
    (hu : Background.uniqueCmds tbl) :
    Background.uniqueCmds (Background.updateCmd c j tbl) ∧
      (∀ r ∈ tbl, ∃ r' ∈ Background.updateCmd c j tbl,
        r'.cmd = r.cmd ∧ r'.workdir = r.workdir ∧ r'.binary = r.binary ∧
          r'.argv = r.argv ∧ r'.status = r.status ∧ r.count ≤ r'.count ∧
          (r'.judge = r.judge ∨ r'.judge = j) ∧ (r.cmd ≠ c → r' = r)) ∧
      Background.initDBData (some tbl) = some tbl ∧
      Background.initDBData none = some [] ∧
      (Background.initTrustedCmdRun tbl).1 = tbl := by
  refine ⟨?_, ?_, rfl, rfl, rfl⟩
  · by_cases h0 : Background.countRec c tbl = 0
    · rw [bg_updateCmd_of_absent c j tbl h0]
      unfold Background.uniqueCmds at hu ⊢
      rw [List.map_append]
      rw [List.nodup_append]
      refine ⟨hu, by simp, ?_⟩
      intro a ha hb
      simp at hb
      subst hb
      exact bg_cmd_not_mem_of_countRec_zero _ tbl h0 ha
    · rw [bg_updateCmd_of_present c j tbl h0]
      unfold Background.uniqueCmds
      rw [bg_map_cmd_sqlUpdateCount]
      exact hu
  · intro r hr
    by_cases h0 : Background.countRec c tbl = 0
    · rw [bg_updateCmd_of_absent c j tbl h0]
      exact ⟨r, List.mem_append_left _ hr, rfl, rfl, rfl, rfl, rfl, le_refl _,
        Or.inl rfl, fun _ => rfl⟩
    · rw [bg_updateCmd_of_present c j tbl h0]
      by_cases hrc : r.cmd = c
      · refine ⟨{ r with count := r.count + 1, judge := j }, ?_, rfl, rfl, rfl, rfl, rfl,
          Nat.le_succ _, Or.inr rfl, fun hne => absurd hrc hne⟩
        have := List.mem_map_of_mem
          (fun x => if x.cmd = c then { x with count := x.count + 1, judge := j } else x) hr
        simpa [Background.sqlUpdateCount, hrc] using this
      · refine ⟨r, ?_, rfl, rfl, rfl, rfl, rfl, le_refl _, Or.inl rfl, fun _ => rfl⟩
        have := List.mem_map_of_mem
          (fun x => if x.cmd = c then { x with count := x.count + 1, judge := j } else x) hr
        simpa [Background.sqlUpdateCount, hrc] using this

/-- C9 witness: the invariants applied to a one-row store receiving a
second report of its command. -/
theorem c9_store_invariants_witness :
    Background.uniqueCmds (Background.updateCmd ['l', 's'] 1
        [⟨['l', 's'], [], ['l', 's'], [], 1, 0, 2⟩]) ∧
      (∀ r ∈ [(⟨['l', 's'], [], ['l', 's'], [], 1, 0, 2⟩ : Background.AuditRecord)],
        ∃ r' ∈ Background.updateCmd ['l', 's'] 1
            [⟨['l', 's'], [], ['l', 's'], [], 1, 0, 2⟩],
        r'.cmd = r.cmd ∧ r'.workdir = r.workdir ∧ r'.binary = r.binary ∧
          r'.argv = r.argv ∧ r'.status = r.status ∧ r.count ≤ r'.count ∧
          (r'.judge = r.judge ∨ r'.judge = 1) ∧ (r.cmd ≠ ['l', 's'] → r' = r)) ∧
      Background.initDBData (some [⟨['l', 's'], [], ['l', 's'], [], 1, 0, 2⟩]) =
        some [⟨['l', 's'], [], ['l', 's'], [], 1, 0, 2⟩] ∧
      Background.initDBData none = some [] ∧
      (Background.initTrustedCmdRun [⟨['l', 's'], [], ['l', 's'], [], 1, 0, 2⟩]).1 =
        [⟨['l', 's'], [], ['l', 's'], [], 1, 0, 2⟩] :=
  c9_store_invariants [⟨['l', 's'], [], ['l', 's'], [], 1, 0, 2⟩] ['l', 's'] 1
    (by unfold Background.uniqueCmds; decide)

theorem bg_countP_cmd_filter_status (tbl : Background.Table)
    (hu : Background.uniqueCmds tbl) (r : Background.AuditRecord) (hr : r ∈ tbl) :
    (tbl.filter fun x => decide (x.status = 2)).countP
        (fun x => decide (x.cmd = r.cmd)) =
      if r.status = 2 then 1 else 0 := by
  induction tbl with
  | nil => cases hr
  | cons a as ih =>
    rw [Background.uniqueCmds, List.map_cons, List.nodup_cons] at hu
    obtain ⟨hnot, hnd⟩ := hu
    rcases List.mem_cons.mp hr with rfl | hmem
    · have hzero : (as.filter fun x => decide (x.status = 2)).countP
          (fun x => decide (x.cmd = r.cmd)) = 0 := by
        rw [List.countP_eq_zero]
        intro x hx
        have hxas := (List.mem_filter.mp hx).1
        simp only [decide_eq_true_eq]
        intro hcmd
        exact hnot (hcmd ▸ List.mem_map_of_mem (·.cmd) hxas)
      by_cases hst : r.status = 2 <;>
        simp [List.filter_cons, hst, List.countP_cons, hzero]
    · have hne : a.cmd ≠ r.cmd := by
        intro hcmd
        exact hnot (hcmd ▸ List.mem_map_of_mem (·.cmd) hmem)
      by_cases hst : a.status = 2 <;>
        simp [List.filter_cons, hst, List.countP_cons, hne, ih hnd hmem]

/-- C3: at startup the background worker's trust replay sends exactly one
`user::proc::trusted::insert` for every stored record whose persisted
status is trusted (2) and none for any other record, and every message it
sends names the command of some status-2 record. -/
theorem c3_restart_replay (tbl : Background.Table) (hu : Background.uniqueCmds tbl) :
    (∀ r ∈ tbl, countTrusted r.cmd (Background.initTrustedCmd tbl) =
        if r.status = 2 then 1 else 0) ∧
      ∀ m ∈ Background.initTrustedCmd tbl, ∃ r ∈ tbl, r.status = 2 ∧
        m = OutMsg.trustedInsert r.cmd := by
  constructor
  · intro r hr
    rw [countTrusted, Background.initTrustedCmd, Background.sqlQueryStatusAllow]
    rw [List.countP_map, List.countP_map]
    rw [← bg_countP_cmd_filter_status tbl hu r hr]
    apply List.countP_congr
    intro x hx
    simp [Function.comp]
  · intro m hm
    rw [Background.initTrustedCmd, Background.sqlQueryStatusAllow] at hm
    simp only [List.mem_map, List.mem_filter, decide_eq_true_eq] at hm
    obtain ⟨cm, ⟨r, ⟨hrt, hrs⟩, hrc⟩, hmm⟩ := hm
    exact ⟨r, hrt, hrs, by rw [← hmm, ← hrc]⟩

/-- C3 witness: a store with one trusted and one unclassified record. -/
theorem c3_restart_replay_witness :
    (∀ r ∈ [(⟨['l', 's'], [], [], [], 3, 1, 2⟩ : Background.AuditRecord),
            ⟨['c', 'p'], [], [], [], 1, 1, 0⟩],
        countTrusted r.cmd (Background.initTrustedCmd
          [⟨['l', 's'], [], [], [], 3, 1, 2⟩, ⟨['c', 'p'], [], [], [], 1, 1, 0⟩]) =
          if r.status = 2 then 1 else 0) ∧
      ∀ m ∈ Background.initTrustedCmd
          [(⟨['l', 's'], [], [], [], 3, 1, 2⟩ : Background.AuditRecord),
           ⟨['c', 'p'], [], [], [], 1, 1, 0⟩],
        ∃ r ∈ [(⟨['l', 's'], [], [], [], 3, 1, 2⟩ : Background.AuditRecord),
               ⟨['c', 'p'], [], [], [], 1, 1, 0⟩],
          r.status = 2 ∧ m = OutMsg.trustedInsert r.cmd :=
  c3_restart_replay
    [⟨['l', 's'], [], [], [], 3, 1, 2⟩, ⟨['c', 'p'], [], [], [], 1, 1, 0⟩]
    (by unfold Background.uniqueCmds; decide)

/-- Go `User` (package user): the value cached per logged-in session. -/
structure User where
  userID : Nat
  username : String
  aliasName : String
  permissions : List String
deriving DecidableEq

/-- Outcome of the gin middleware: pass the request on, or abort with 401
or 403. -/
inductive MwDecision where
  | next
  | abortUnauthorized
  | abortForbidden
deriving DecidableEq

/-- Middleware outcome plus whether the session cookie / logged-user cache
was consulted. -/
structure MwResult where
  decision : MwDecision
  sessionChecked : Bool
deriving DecidableEq

/-- Go `Middleware` (package user): GET requests and the login path pass
through immediately; otherwise the session cookie is read and looked up in
the logged-user cache (401 on either failure), then every permission
pattern of the cached user is glob-compiled (compile errors are skipped)
and matched against the URL path; the first match passes the request on,
and exhausting the list aborts with 403. The glob library
(github.com/gobwas/glob) is external and passed in as `globCompile`; the
logged-user LRU cache is passed as an association list. -/
def Middleware (sessions : List (String × User))
    (globCompile : String → Option (String → Bool))
    (methodIsGet : Bool) (path : String) (cookie : Option String) : MwResult :=
  if methodIsGet then ⟨.next, false⟩
  else if path = "/user/login" then ⟨.next, false⟩
  else
    match cookie with
    | none => ⟨.abortUnauthorized, true⟩
    | some s =>
      match sessions.lookup s with
      | none => ⟨.abortUnauthorized, true⟩
      | some u =>
        if u.permissions.any fun p =>
            match globCompile p with
            | none => false
            | some g => g path
        then ⟨.next, true⟩
        else ⟨.abortForbidden, true⟩

/-- C10: a GET request passes straight through the session middleware with
no session lookup and no permission check, whatever the cache, cookie and
glob matcher hold; the login path likewise; and every non-GET request to a
non-login path does consult the session state. -/
theorem c10_get_bypass (sessions : List (String × User))
    (globCompile : String → Option (String → Bool)) (path : String)
    (cookie : Option String) :
    Middleware sessions globCompile true path cookie = ⟨.next, false⟩ ∧
      Middleware sessions globCompile false "/user/login" cookie = ⟨.next, false⟩ ∧
      (path ≠ "/user/login" →
        (Middleware sessions globCompile false path cookie).sessionChecked = true) := by
  refine ⟨rfl, rfl, fun h => ?_⟩
  simp only [Middleware, Bool.false_eq_true, if_false, if_neg h]
  cases cookie with
  | none => rfl
  | some s =>
    simp only []
    cases sessions.lookup s with
    | none => rfl
    | some u =>
      by_cases hp : u.permissions.any fun p =>
          match globCompile p with
          | none => false
          | some g => g path
      · simp [hp]
      · simp [hp]

/-- C10 witness: the theorem applied to a non-login path, an empty cache
and a glob compiler that always fails. -/
theorem c10_get_bypass_witness :
    Middleware [] (fun _ => none) true "/user/query" (some "sid") =
        ⟨MwDecision.next, false⟩ ∧
      (Middleware [] (fun _ => none) false "/user/query"
        (some "sid")).sessionChecked = true :=
  ⟨(c10_get_bypass [] (fun _ => none) "/user/query" (some "sid")).1,
   (c10_get_bypass [] (fun _ => none) "/user/query" (some "sid")).2.2 (by decide)⟩

/-- Modelled from the spec: `status.ProcessCoreEnable` (pkg/status, not
under src/) is the sentinel value compared against the persisted
`proc::core::status` integer; the claims do not depend on its value. -/
def ProcessCoreEnable : Int := 1

/-- Environment of one `Stop` invocation: which Connector sends and the
shutdown signal fail, and what the config read returns (`none` on a read
error). -/
structure StopEnv where
  unsubAuditFails : Bool
  unsubOsinfoFails : Bool
  coreStatus : Option Int
  disableFails : Bool
  shutdownFails : Bool
deriving DecidableEq

/-- Observable outcome of `Stop`: whether an error is returned to the
caller, and which of the loop-terminating steps (clearing `running`,
`wg.Wait()`, `conn.Close()`) were reached. -/
structure StopResult where
  errReturned : Bool
  runningCleared : Bool
  joinAttempted : Bool
  connClosed : Bool
deriving DecidableEq

/-- Go `Stop` (package background): send both unsubscribe messages, then
conditionally send disable when the config read succeeded with the enable
sentinel — each `if err != nil { return }` aborts the whole function —
then sleep one second, clear `running`, call `conn.Shutdown(time.Now())`
(returning on error before the join), then `wg.Wait()` and `conn.Close()`. -/
def Background.Stop (e : StopEnv) : StopResult :=
  if e.unsubAuditFails = true then ⟨true, false, false, false⟩
  else if e.unsubOsinfoFails = true then ⟨true, false, false, false⟩
  else if e.coreStatus = some ProcessCoreEnable ∧ e.disableFails = true then
    ⟨true, false, false, false⟩
  else if e.shutdownFails = true then ⟨true, true, false, false⟩
  else ⟨false, true, true, true⟩

/-- Go `Stop` (package judge): send the audit unsubscribe and then the
disable message unconditionally, each returning on error; then sleep,
clear `running`, `conn.Shutdown()` (returning on error before the join),
then `wg.Wait()` and `conn.Close()`. -/
def Judge.Stop (e : StopEnv) : StopResult :=
  if e.unsubAuditFails = true then ⟨true, false, false, false⟩
  else if e.disableFails = true then ⟨true, false, false, false⟩
  else if e.shutdownFails = true then ⟨true, true, false, false⟩
  else ⟨false, true, true, true⟩

/-- C5: the claim fails on the code. When the first unsubscribe send fails,
`Stop` returns that error immediately: the running flag is NOT cleared,
the receive-loop join is NOT attempted, and the Connector is NOT closed. -/
theorem c5_counterexample :
    (Background.Stop ⟨true, false, none, false, false⟩).errReturned = true ∧
      (Background.Stop ⟨true, false, none, false, false⟩).runningCleared = false ∧
      (Background.Stop ⟨true, false, none, false, false⟩).joinAttempted = false ∧
      (Background.Stop ⟨true, false, none, false, false⟩).connClosed = false ∧
      (Judge.Stop ⟨true, false, none, false, false⟩).joinAttempted = false := by
  decide

/-- C5 (amended): in both variants an error from the unsubscribe sends,
the conditional disable send, or the Connector shutdown is returned to the
caller and ABORTS the remaining shutdown steps: whenever an error is
returned the join is not attempted and the Connector is not closed, and
the running flag has been cleared only when the failing step was the
shutdown signal itself; when no step fails, the flag is cleared, the join
is attempted and the Connector is closed. -/
theorem c5_amended_stop_abort (e : StopEnv) :
    ((Background.Stop e).errReturned = true →
      (Background.Stop e).joinAttempted = false ∧
        (Background.Stop e).connClosed = false ∧
        ((Background.Stop e).runningCleared = true ↔
          e.unsubAuditFails = false ∧ e.unsubOsinfoFails = false ∧
            ¬ (e.coreStatus = some ProcessCoreEnable ∧ e.disableFails = true) ∧
            e.shutdownFails = true)) ∧
    ((Background.Stop e).errReturned = false →
      (Background.Stop e).runningCleared = true ∧
        (Background.Stop e).joinAttempted = true ∧
        (Background.Stop e).connClosed = true) ∧
    ((Judge.Stop e).errReturned = true →
      (Judge.Stop e).joinAttempted = false ∧
        (Judge.Stop e).connClosed = false ∧
        ((Judge.Stop e).runningCleared = true ↔
          e.unsubAuditFails = false ∧ e.disableFails = false ∧
            e.shutdownFails = true)) ∧
    ((Judge.Stop e).errReturned = false →
      (Judge.Stop e).runningCleared = true ∧
        (Judge.Stop e).joinAttempted = true ∧
        (Judge.Stop e).connClosed = true) := by
  unfold Background.Stop Judge.Stop
  split_ifs <;> simp_all

/-- C5 witness: the amended statement applied to a shutdown-signal failure
and to an error-free shutdown. -/
theorem c5_amended_stop_abort_witness :
    ((Background.Stop ⟨false, false, none, false, true⟩).joinAttempted = false ∧
        (Background.Stop ⟨false, false, none, false, true⟩).connClosed = false) ∧
      (Background.Stop ⟨false, false, none, false, false⟩).connClosed = true :=
  ⟨⟨((c5_amended_stop_abort ⟨false, false, none, false, true⟩).1 (by decide)).1,
    ((c5_amended_stop_abort ⟨false, false, none, false, true⟩).1 (by decide)).2.1⟩,
   ((c5_amended_stop_abort ⟨false, false, none, false, false⟩).2.1 (by decide)).2.2⟩

/-- C2: the claim fails on both variants. The background worker reacts to
malformed JSON by logging AND issuing `syscall.Kill(getpid, SIGINT)` — a
process self-termination request — before continuing; and the judge worker
panics (failed `doc["type"].(string)` type assertion) on a well-formed JSON
message that lacks a `type` field. -/
theorem c2_counterexample :
    (Background.step true [] Inbound.malformed).2.killedSelf = true ∧
      (Judge.step true []
        (Inbound.wellFormed ⟨JField.absent, JField.absent, none⟩)).2.panicked = true := by
  decide

/-- C2 (amended): malformed JSON is logged and the message dropped in both
variants, without panic, but the background variant additionally requests
process self-termination before continuing while the judge variant does
not; a well-formed message lacking a `type` field is silently ignored by
the background variant (typed Unmarshal leaves the zero value) yet makes
the judge variant panic; a `type` field holding a non-string value is an
Unmarshal error in the background variant (logged, self-termination
requested) and again a panic in the judge variant. -/
theorem c2_amended_protocol_errors (btbl : Background.Table) (jtbl : Judge.Table)
    (d : JsonDoc) :
    ((Background.step true btbl Inbound.malformed).2.logged = true ∧
      (Background.step true btbl Inbound.malformed).2.killedSelf = true ∧
      (Background.step true btbl Inbound.malformed).2.panicked = false ∧
      (Background.step true btbl Inbound.malformed).2.exitsLoop = false ∧
      (Background.step true btbl Inbound.malformed).1 = btbl) ∧
    ((Judge.step true jtbl Inbound.malformed).2.logged = true ∧
      (Judge.step true jtbl Inbound.malformed).2.killedSelf = false ∧
      (Judge.step true jtbl Inbound.malformed).2.panicked = false ∧
      (Judge.step true jtbl Inbound.malformed).2.exitsLoop = false ∧
      (Judge.step true jtbl Inbound.malformed).1 = jtbl) ∧
    (d.typeField = JField.absent → d.cmdField ≠ JField.wrongType →
      (Background.step true btbl (Inbound.wellFormed d)).2.killedSelf = false ∧
        (Background.step true btbl (Inbound.wellFormed d)).2.panicked = false ∧
        (Background.step true btbl (Inbound.wellFormed d)).1 = btbl) ∧
    (d.typeField = JField.absent →
      (Judge.step true jtbl (Inbound.wellFormed d)).2.panicked = true) ∧
    (d.typeField = JField.wrongType →
      (Background.step true btbl (Inbound.wellFormed d)).2.logged = true ∧
        (Background.step true btbl (Inbound.wellFormed d)).2.killedSelf = true ∧
        (Judge.step true jtbl (Inbound.wellFormed d)).2.panicked = true) := by
  obtain ⟨tf, cf, jf⟩ := d
  refine ⟨by simp [Background.step], by simp [Judge.step], ?_, ?_, ?_⟩
  · rintro rfl hcf
    cases cf with
    | absent => simp [Background.step, bgDecode]
    | val c => simp [Background.step, bgDecode]
    | wrongType => exact absurd rfl hcf
  · rintro rfl
    simp [Judge.step]
  · rintro rfl
    cases cf <;> simp [Background.step, Judge.step, bgDecode]

/-- C2 witness: the amended statement applied to an empty store and a
document with an absent `type` field. -/
theorem c2_amended_protocol_errors_witness :
    (Background.step true [] Inbound.malformed).2.killedSelf = true ∧
      (Judge.step true []
          (Inbound.wellFormed ⟨JField.absent, JField.val ['l', 's'], none⟩)).2.panicked =
        true ∧
      (Background.step true []
          (Inbound.wellFormed ⟨JField.absent, JField.val ['l', 's'], none⟩)).2.killedSelf =
        false :=
  ⟨(c2_amended_protocol_errors [] [] ⟨JField.absent, JField.val ['l', 's'], none⟩).1.2.1,
   (c2_amended_protocol_errors [] [] ⟨JField.absent, JField.val ['l', 's'], none⟩).2.2.2.1
     (by decide),
   ((c2_amended_protocol_errors [] [] ⟨JField.absent, JField.val ['l', 's'], none⟩).2.2.1
     (by decide) (by decide)).1⟩

/-- C6: the claim fails on the judge variant: on a receive error while the
agent is still running, the judge worker only logs — it never requests
process self-termination — and a successfully received message is still
processed after the agent has been asked to stop. -/
theorem c6_counterexample :
    (Judge.step true [] Inbound.recvErr).2.logged = true ∧
      (Judge.step true [] Inbound.recvErr).2.killedSelf = false ∧
      (Judge.step false [] (auditMsg ['l', 's'] (some 1))).2.processed = true := by
  decide

/-- C6 (amended): the background variant behaves as claimed — when the
running flag is cleared its loop exits without processing the last receive
result, and a receive error while running is logged, triggers a
self-termination request, and the loop keeps iterating — while the judge
variant logs receive errors only while running, never requests
self-termination, exits only through the loop condition (so an error after
stop just ends the loop), and still processes (or panics on) a message
received after stop. -/
theorem c6_amended_loop_exit (btbl : Background.Table) (jtbl : Judge.Table)
    (m : Inbound) :
    ((Background.step false btbl m).2.exitsLoop = true ∧
      (Background.step false btbl m).2.processed = false ∧
      (Background.step false btbl m).1 = btbl) ∧
    ((Background.step true btbl Inbound.recvErr).2.logged = true ∧
      (Background.step true btbl Inbound.recvErr).2.killedSelf = true ∧
      (Background.step true btbl Inbound.recvErr).2.exitsLoop = false) ∧
    ((Judge.step true jtbl Inbound.recvErr).2.logged = true ∧
      (Judge.step true jtbl Inbound.recvErr).2.killedSelf = false ∧
      (Judge.step true jtbl Inbound.recvErr).2.exitsLoop = false) ∧
    ((Judge.step false jtbl Inbound.recvErr).2.logged = false ∧
      (Judge.step false jtbl Inbound.recvErr).2.killedSelf = false ∧
      (Judge.step false jtbl Inbound.recvErr).2.processed = false ∧
      (Judge.step false jtbl Inbound.recvErr).2.exitsLoop = true) ∧
    (∀ dd : JsonDoc, (Judge.step false jtbl (Inbound.wellFormed dd)).2.processed = true ∨
      (Judge.step false jtbl (Inbound.wellFormed dd)).2.panicked = true) := by
  refine ⟨by cases m <;> simp [Background.step], by simp [Background.step],
    by simp [Judge.step], by simp [Judge.step], ?_⟩
  intro dd
  obtain ⟨tf, cf, jf⟩ := dd
  cases tf with
  | absent => simp [Judge.step]
  | wrongType => simp [Judge.step]
  | val t =>
    by_cases ht : t = "audit::proc::report"
    · cases cf with
      | absent => simp [Judge.step, ht]
      | wrongType => simp [Judge.step, ht]
      | val c =>
        by_cases hlt : (Judge.updateCmdTimes c jtbl).2 < 3 <;> simp [Judge.step, ht, hlt]
    · simp [Judge.step, ht]

/-- Modelled from the spec: the Watchdog (uranus/pkg/watchdog, not under
src/) is a resettable timer with a fixed interval whose callback fires
exactly once per arming if no kick arrives within the interval, and which
is not rearmed after firing unless kicked again; `kick` resets the
deadline. Time is a discrete clock of natural numbers. -/
structure Watchdog where
  interval : Nat
  deadline : Nat
  armed : Bool
deriving DecidableEq

/-- Arm a fresh watchdog at the current time (`watchdog.New`). -/
def Watchdog.new (interval now : Nat) : Watchdog :=
  ⟨interval, now + interval, true⟩

/-- Reset the deadline and rearm (`Kick`). -/
def Watchdog.kick (d : Watchdog) (now : Nat) : Watchdog :=
  ⟨d.interval, now + d.interval, true⟩

/-- Observe the clock: the callback fires when the watchdog is armed and
the deadline has been reached; firing disarms it. -/
def Watchdog.tick (d : Watchdog) (now : Nat) : Watchdog × Bool :=
  if d.armed = true ∧ d.deadline ≤ now then (⟨d.interval, d.deadline, false⟩, true)
  else (d, false)

/-- Number of callback firings over a sequence of clock observations. -/
def fireCount (d : Watchdog) : List Nat → Nat
  | [] => 0
  | t :: ts =>
    let s := d.tick t
    (if s.2 then 1 else 0) + fireCount s.1 ts

/-- The interval the background run loop arms its watchdog with:
`watchdog.New(10*time.Second, ...)`, counted in seconds. -/
def bgWatchdogInterval : Nat := 10

/-- Effects of one invocation of the callback installed by the background
run loop: log the timeout and send SIGINT to the agent's own process. -/
def bgDogCallback : Effects :=
  { logged := true, killedSelf := true }

/-- Whether an inbound message makes the background worker kick the
watchdog (its `osinfo::report` dispatch case). -/
def kicksDog (m : Inbound) : Bool :=
  match m with
  | .wellFormed d =>
    match bgDecode d with
    | some (t, _, _) => decide (t = "osinfo::report")
    | none => false
  | _ => false

/-- The background run loop with its watchdog: inbound messages carry
arrival times; the watchdog's timer thread is modelled by a clock
observation before each message is handled; an `osinfo::report` kicks the
watchdog at its arrival time; each firing runs the callback once. Returns
the final table, the final watchdog state, and the callback invocations. -/
def bgRunTimed : List (Nat × Inbound) → Background.Table → Watchdog →
    Background.Table × Watchdog × List Effects
  | [], tbl, d => (tbl, d, [])
  | (t, m) :: evs, tbl, d =>
    let s := d.tick t
    let st := Background.step true tbl m
    let d2 := if st.2.kickedDog then s.1.kick t else s.1
    let rest := bgRunTimed evs st.1 d2
    (rest.1, rest.2.1, (if s.2 then [bgDogCallback] else []) ++ rest.2.2)

theorem bg_step_kickedDog (tbl : Background.Table) (m : Inbound) :
    (Background.step true tbl m).2.kickedDog = kicksDog m := by
  cases m with
  | recvErr => rfl
  | malformed => rfl
  | wellFormed d =>
    simp only [Background.step, kicksDog, if_pos trivial]
    cases hbd : bgDecode d with
    | none => simp
    | some v =>
      obtain ⟨t, c, j⟩ := v
      by_cases h1 : t = "audit::proc::report"
      · subst h1; simp
      · by_cases h2 : t = "osinfo::report" <;> simp [h1, h2]

theorem fireCount_unarmed (ts : List Nat) :
    ∀ d : Watchdog, d.armed = false → fireCount d ts = 0 := by
  induction ts with
  | nil => intro d h; rfl
  | cons t ts ih =>
    intro d h
    have htick : d.tick t = (d, false) := by
      simp [Watchdog.tick, h]
    simp [fireCount, htick, ih d h]

theorem fireCount_armed (ts : List Nat) :
    ∀ d : Watchdog, d.armed = true →
      fireCount d ts = if ts.any fun t => decide (d.deadline ≤ t) then 1 else 0 := by
  induction ts with
  | nil => intro d h; rfl
  | cons t ts ih =>
    intro d h
    by_cases hd : d.deadline ≤ t
    · have htick : d.tick t = (⟨d.interval, d.deadline, false⟩, true) := by
        simp [Watchdog.tick, h, hd]
      simp [fireCount, htick, fireCount_unarmed ts ⟨d.interval, d.deadline, false⟩ rfl, hd]
    · have htick : d.tick t = (d, false) := by
        simp [Watchdog.tick, hd]
      simp [fireCount, htick, ih d h, hd]

theorem bgRunTimed_no_kick (evs : List (Nat × Inbound)) :
    ∀ (tbl : Background.Table) (d : Watchdog),
      (∀ e ∈ evs, kicksDog e.2 = false) →
      (bgRunTimed evs tbl d).2.2 =
        List.replicate (fireCount d (evs.map (·.1))) bgDogCallback := by
  induction evs with
  | nil => intro tbl d h; rfl
  | cons e evs ih =>
    intro tbl d h
    obtain ⟨t, m⟩ := e
    have hm : kicksDog m = false := h (t, m) (by simp)
    have hk : (Background.step true tbl m).2.kickedDog = false := by
      rw [bg_step_kickedDog]; exact hm
    simp only [bgRunTimed, hk, if_false, List.map_cons, fireCount, Bool.false_eq_true]
    rw [ih (Background.step true tbl m).1 (d.tick t).1 fun x hx => h x (by simp [hx])]
    by_cases hf : (d.tick t).2 <;>
      simp [hf, List.replicate_add, List.replicate_succ]

theorem any_fst_map (evs : List (Nat × Inbound)) (p : Nat → Bool) :
    (evs.map (fun x => x.1)).any p = evs.any fun e => p e.1 := by
  induction evs with
  | nil => rfl
  | cons e es ih => simp [List.any_cons, ih]

/-- C7: over the spec-modelled watchdog, the background run loop arms a
watchdog with the fixed 10-second interval and a callback that logs and
issues one self-termination signal per invocation; with no heartbeat kicks
the callback runs exactly once as soon as any clock observation reaches
the arming time plus 10, and never again (the watchdog is not rearmed);
every inbound `osinfo::report` kicks the watchdog; a kick resets the
deadline to its arrival time plus the interval and suppresses any firing
strictly before that new deadline. -/
theorem c7_watchdog (t0 : Nat) (evs : List (Nat × Inbound)) (tbl : Background.Table)
    (hnk : ∀ e ∈ evs, kicksDog e.2 = false) :
    (bgRunTimed evs tbl (Watchdog.new bgWatchdogInterval t0)).2.2 =
        (if evs.any fun e => decide (t0 + 10 ≤ e.1) then [bgDogCallback] else []) ∧
      bgDogCallback.logged = true ∧ bgDogCallback.killedSelf = true ∧
      (∀ (tbl2 : Background.Table) (dd : JsonDoc) (c : Str) (j : Int),
        bgDecode dd = some ("osinfo::report", c, j) →
        (Background.step true tbl2 (Inbound.wellFormed dd)).2.kickedDog = true) ∧
      (∀ (d : Watchdog) (t : Nat),
        (d.kick t).deadline = t + d.interval ∧ (d.kick t).armed = true) ∧
      (∀ (d : Watchdog) (t : Nat) (ts : List Nat), (∀ u ∈ ts, u < t + d.interval) →
        fireCount (d.kick t) ts = 0) := by
  refine ⟨?_, rfl, rfl, ?_, fun d t => ⟨rfl, rfl⟩, ?_⟩
  · rw [bgRunTimed_no_kick evs tbl _ hnk, fireCount_armed _ _ rfl, any_fst_map]
    show List.replicate
        (if evs.any (fun e => decide (t0 + 10 ≤ e.1)) then 1 else 0) bgDogCallback = _
    by_cases h : evs.any (fun e => decide (t0 + 10 ≤ e.1)) <;> simp [h]
  · intro tbl2 dd c j hdd
    simp [Background.step, hdd]
  · intro d t ts hts
    rw [fireCount_armed _ _ rfl]
    have hfalse : (ts.any fun u => decide ((d.kick t).deadline ≤ u)) = false := by
      rw [List.any_eq_false]
      intro u hu
      simp only [Watchdog.kick, decide_eq_true_eq]
      exact Nat.not_le.mpr (hts u hu)
    rw [hfalse]
    rfl

/-- C7 witness: no heartbeat and one receive at time 11 after arming at 0
fires the callback once; a kick at 5 suppresses an observation at 12. -/
theorem c7_watchdog_witness :
    (bgRunTimed [(11, Inbound.recvErr)] [] (Watchdog.new bgWatchdogInterval 0)).2.2 =
        (if [((11 : Nat), Inbound.recvErr)].any fun e => decide (0 + 10 ≤ e.1) then
          [bgDogCallback] else []) ∧
      fireCount ((⟨10, 10, true⟩ : Watchdog).kick 5) [12] = 0 :=
  ⟨(c7_watchdog 0 [(11, Inbound.recvErr)] [] (by decide)).1,
   (c7_watchdog 0 [] [] (by decide)).2.2.2.2.2 ⟨10, 10, true⟩ 5 [12] (by decide)⟩
